import Mathlib

/-!
Shallow embedding of `src/polygon_orientation.py` over exact real arithmetic.

The Python source computes the winding orientation of a polygon from the
signed sum of exterior turning angles.  Machine floats are modelled as real
numbers; the two `assert` statements are modelled by `Option` results
(`none` = assertion failure); numpy primitives (`np.linalg.norm`,
`np.linalg.det` on a 2×2 row matrix, `np.sign`, `np.isclose`, `np.round`)
are translated to their documented exact meaning.
-/

namespace PolyOrient

open Real

/-- A 2D point / vector: `ℝ × ℝ`, mirroring the Python coordinate pairs. -/
abbrev Point := ℝ × ℝ

/-- Default element used for out-of-range list indexing (never reached for
the in-range indices the code uses). -/
def origin : Point := (0, 0)

/-- Componentwise subtraction `a - b`, as in `np.array(a) - np.array(b)`. -/
def vsub (a b : Point) : Point := (a.1 - b.1, a.2 - b.2)

/-- `np.linalg.norm(v)` for a 2-vector: `sqrt (x² + y²)`. -/
noncomputable def norm2 (v : Point) : ℝ := Real.sqrt (v.1 ^ 2 + v.2 ^ 2)

/-- `normalize(v)`: `np.array(v) / np.linalg.norm(v)` (source lines 3–5). -/
noncomputable def normalize (v : Point) : Point :=
  (v.1 / norm2 v, v.2 / norm2 v)

/-- `rad_to_deg(rad) = 180 * rad / np.pi` (source lines 7–8). -/
noncomputable def rad_to_deg (rad : ℝ) : ℝ := 180 * rad / Real.pi

/-- `np.linalg.det([u, v])` for rows `u`, `v`: `u₁v₂ - u₂v₁`
(the 2D cross-product z-component). -/
def det2 (u v : Point) : ℝ := u.1 * v.2 - u.2 * v.1

/-- `np.dot(u, v)` for 2-vectors. -/
def dot2 (u v : Point) : ℝ := u.1 * v.1 + u.2 * v.2

/-- `np.sign(x)`: 1 for positive, -1 for negative, 0 for zero. -/
noncomputable def npSign (x : ℝ) : ℝ := if 0 < x then 1 else if x < 0 then -1 else 0

/-- The sign factor `s` of `angle_between` (source lines 16–19):
`s = np.sign(cross_product)`, replaced by `1` when it is `0`. -/
noncomputable def signFactor (cp : ℝ) : ℝ := if npSign cp = 0 then 1 else npSign cp

/-- The clamping of the dot product into `[-1, 1]` (source lines 27–28):
`np.min([d, 1])` followed by `np.max([d, -1])`. -/
noncomputable def clampDot (x : ℝ) : ℝ := max (min x 1) (-1)

/-- `angle_between(v1, v2)` (source lines 10–30): sign from the determinant
of the normalized vectors (with the zero tie-break to `+1`), magnitude
`arccos` of the clamped dot product of the normalized vectors. -/
noncomputable def angle_between (v1 v2 : Point) : ℝ :=
  signFactor (det2 (normalize v1) (normalize v2)) *
    Real.arccos (clampDot (dot2 (normalize v1) (normalize v2)))

/-- `np.isclose(a, b, rtol, atol)`: `|a - b| ≤ atol + rtol * |b|`. -/
def npIsClose (a b rtol atol : ℝ) : Prop := |a - b| ≤ atol + rtol * |b|

/-- The closing-point test of `compute_total_angle` (source line 38):
`np.isclose(points[0][c], points[-1][c], rtol=1e-8)` for each coordinate
`c`; `atol` keeps its numpy default `1e-8`. -/
def closeFirstLast (ps : List Point) : Prop :=
  npIsClose (ps.getD 0 origin).1 (ps.getD (ps.length - 1) origin).1 1e-8 1e-8 ∧
  npIsClose (ps.getD 0 origin).2 (ps.getD (ps.length - 1) origin).2 1e-8 1e-8

/-- The summation loop of `compute_total_angle` (source lines 42–48):
for each `i < n`, with `j = (i+1) % n`, `k = (i+2) % n`,
accumulate `angle_between (points[j] - points[i]) (points[k] - points[j])`. -/
noncomputable def totalAngleSum (ps : List Point) : ℝ :=
  ∑ i ∈ Finset.range ps.length,
    angle_between
      (vsub (ps.getD ((i + 1) % ps.length) origin) (ps.getD i origin))
      (vsub (ps.getD ((i + 2) % ps.length) origin) (ps.getD ((i + 1) % ps.length) origin))

open Classical in
/-- `compute_total_angle(points)` (source lines 32–49): assert
`len(points) > 2` (`none` on failure), trim the duplicated closing point
when the first and last points are `np.isclose`, then sum the turning
angles. -/
noncomputable def compute_total_angle (ps : List Point) : Option ℝ :=
  if 2 < ps.length then
    some (totalAngleSum (if closeFirstLast ps then ps.dropLast else ps))
  else none

/-- `np.round` to an integer: round half to even (numpy banker's rounding). -/
noncomputable def roundHalfEven (x : ℝ) : ℤ :=
  if Int.fract x = 1 / 2 then (if Even ⌊x⌋ then ⌊x⌋ else ⌊x⌋ + 1) else round x

/-- `np.round(x, d)`: half-even rounding of `x` at `d` decimal places. -/
noncomputable def npRound (d : ℕ) (x : ℝ) : ℝ :=
  (roundHalfEven (x * 10 ^ d) : ℝ) / 10 ^ d

/-- The raw rotation count (source lines 53–54):
`rad_to_deg(total_angle) / 360.0`. -/
noncomputable def n_rotations_raw (t : ℝ) : ℝ := rad_to_deg t / 360

/-- The assertion of `compute_n_rotations` (source line 57):
`np.isclose(np.round(n, 3), n, atol=1e-8)` — `rtol` keeps its numpy
default `1e-5`. -/
def rotationAssert (n : ℝ) : Prop := npIsClose (npRound 3 n) n 1e-5 1e-8

open Classical in
/-- `compute_n_rotations(points)` (source lines 51–58): total angle in
degrees over 360, asserted close to its 3-decimal rounding (`none` on
assertion failure), returning `np.round(n_rotations)`. -/
noncomputable def compute_n_rotations (ps : List Point) : Option ℝ :=
  (compute_total_angle ps).bind fun t =>
    if rotationAssert (n_rotations_raw t) then
      some (npRound 0 (n_rotations_raw t))
    else none

/-- Modelled from the spec: "numerically indistinguishable from an integer"
(claim C1) — within `1e-8` absolute tolerance of some integer.  Used only
to compare the spec's description of the validation with the code's actual
check. -/
def nearIntegerSpec (n : ℝ) : Prop := ∃ k : ℤ, |n - (k : ℝ)| ≤ 1e-8

/-- Modelled from the spec: first and last points "coincide coordinate-wise
under a relative tolerance of 1e-8 per coordinate" (claim C6) — a purely
relative comparison, with no absolute term. -/
def relCloseFirstLast (ps : List Point) : Prop :=
  |(ps.getD 0 origin).1 - (ps.getD (ps.length - 1) origin).1| ≤
      1e-8 * |(ps.getD (ps.length - 1) origin).1| ∧
  |(ps.getD 0 origin).2 - (ps.getD (ps.length - 1) origin).2| ≤
      1e-8 * |(ps.getD (ps.length - 1) origin).2|

/-- The counterclockwise test triangle from the source tests (line 74). -/
def triCCW : List Point := [(0, 0), (1, 0), (1, 1)]

/-- The clockwise (reversed) test triangle. -/
def triCW : List Point := [(1, 1), (1, 0), (0, 0)]

/-- The counterclockwise test square with duplicated closing point
(source line 77). -/
def sqCCW : List Point := [(0, 0), (1, 0), (1, 1), (0, 1), (0, 0)]

/-! ### Basic facts about the embedded primitives -/

lemma norm2_nonneg (v : Point) : 0 ≤ norm2 v := Real.sqrt_nonneg _

lemma norm2_eq_zero_iff (v : Point) : norm2 v = 0 ↔ v = origin := by
  unfold norm2 origin
  rw [Real.sqrt_eq_zero (by positivity)]
  constructor
  · intro h
    have h1 : v.1 = 0 := by nlinarith [sq_nonneg v.1, sq_nonneg v.2]
    have h2 : v.2 = 0 := by nlinarith [sq_nonneg v.1, sq_nonneg v.2]
    exact Prod.ext h1 h2
  · intro h
    rw [h]
    norm_num

lemma norm2_pos (v : Point) (hv : v ≠ origin) : 0 < norm2 v := by
  rcases lt_or_eq_of_le (norm2_nonneg v) with h | h
  · exact h
  · exact absurd ((norm2_eq_zero_iff v).mp h.symm) hv

lemma norm2_sq (v : Point) : norm2 v ^ 2 = v.1 ^ 2 + v.2 ^ 2 := by
  unfold norm2
  exact Real.sq_sqrt (by positivity)

lemma dot2_normalize_self (v : Point) (hv : v ≠ origin) :
    dot2 (normalize v) (normalize v) = 1 := by
  have hn := norm2_pos v hv
  have hsq := norm2_sq v
  unfold dot2 normalize
  field_simp
  nlinarith [hsq]

lemma normalize_smul (v : Point) (c : ℝ) (hv : v ≠ origin) (hc : c < 0) :
    normalize (c * v.1, c * v.2) = (-(normalize v).1, -(normalize v).2) := by
  have hn := norm2_pos v hv
  have hnc : norm2 (c * v.1, c * v.2) = -c * norm2 v := by
    unfold norm2
    rw [show (c * v.1) ^ 2 + (c * v.2) ^ 2 = c ^ 2 * (v.1 ^ 2 + v.2 ^ 2) by ring,
      Real.sqrt_mul (sq_nonneg c), Real.sqrt_sq_eq_abs, abs_of_neg hc]
  unfold normalize
  rw [hnc]
  have hc0 : c ≠ 0 := ne_of_lt hc
  have hn0 : norm2 v ≠ 0 := ne_of_gt hn
  refine Prod.ext ?_ ?_ <;> (simp only []; field_simp; ring)

/-! #### `np.sign` and the sign factor -/

lemma npSign_of_pos {x : ℝ} (h : 0 < x) : npSign x = 1 := by
  unfold npSign
  rw [if_pos h]

lemma npSign_of_neg {x : ℝ} (h : x < 0) : npSign x = -1 := by
  unfold npSign
  rw [if_neg (by linarith), if_pos h]

lemma npSign_zero : npSign 0 = 0 := by
  unfold npSign
  norm_num

lemma npSign_neg (x : ℝ) : npSign (-x) = -npSign x := by
  rcases lt_trichotomy x 0 with h | h | h
  · rw [npSign_of_neg h, npSign_of_pos (by linarith)]
    norm_num
  · rw [h]
    rw [neg_zero, npSign_zero]
    norm_num
  · rw [npSign_of_pos h, npSign_of_neg (by linarith)]

lemma signFactor_of_pos {x : ℝ} (h : 0 < x) : signFactor x = 1 := by
  unfold signFactor
  rw [npSign_of_pos h, if_neg (by norm_num)]

lemma signFactor_of_neg {x : ℝ} (h : x < 0) : signFactor x = -1 := by
  unfold signFactor
  rw [npSign_of_neg h, if_neg (by norm_num)]

lemma signFactor_of_zero {x : ℝ} (h : x = 0) : signFactor x = 1 := by
  unfold signFactor
  rw [h, npSign_zero, if_pos rfl]

lemma signFactor_cases (x : ℝ) : signFactor x = 1 ∨ signFactor x = -1 := by
  rcases lt_trichotomy x 0 with h | h | h
  · exact Or.inr (signFactor_of_neg h)
  · exact Or.inl (signFactor_of_zero h)
  · exact Or.inl (signFactor_of_pos h)

lemma abs_signFactor (x : ℝ) : |signFactor x| = 1 := by
  rcases signFactor_cases x with h | h <;> rw [h] <;> norm_num

/-! #### Clamping -/

lemma clampDot_of_mem {x : ℝ} (h1 : -1 ≤ x) (h2 : x ≤ 1) : clampDot x = x := by
  unfold clampDot
  rw [min_eq_left h2, max_eq_left h1]

lemma clampDot_one : clampDot 1 = 1 := clampDot_of_mem (by norm_num) le_rfl

lemma clampDot_mem (x : ℝ) : -1 ≤ clampDot x ∧ clampDot x ≤ 1 := by
  unfold clampDot
  constructor
  · exact le_max_right _ _
  · rcases le_total (min x 1) (-1) with h | h
    · rw [max_eq_right h]
      norm_num
    · rw [max_eq_left h]
      exact min_le_right _ _

/-! #### Square roots and arccos values used by the concrete polygons -/

lemma sqrt_two_pos : (0 : ℝ) < Real.sqrt 2 := Real.sqrt_pos.mpr (by norm_num)

lemma one_le_sqrt_two : (1 : ℝ) ≤ Real.sqrt 2 := by
  rw [show (1 : ℝ) = Real.sqrt 1 from (Real.sqrt_one).symm]
  exact Real.sqrt_le_sqrt (by norm_num)

lemma inv_sqrt_two_le_one : 1 / Real.sqrt 2 ≤ 1 := by
  rw [div_le_one sqrt_two_pos]
  exact one_le_sqrt_two

lemma cos_pi_div_four_eq : Real.cos (Real.pi / 4) = 1 / Real.sqrt 2 := by
  rw [Real.cos_pi_div_four]
  rw [eq_div_iff (ne_of_gt sqrt_two_pos)]
  rw [div_mul_eq_mul_div, Real.mul_self_sqrt (by norm_num)]
  norm_num

lemma arccos_zero' : Real.arccos 0 = Real.pi / 2 := by
  unfold Real.arccos
  rw [Real.arcsin_zero]
  ring

lemma arccos_inv_sqrt_two : Real.arccos (1 / Real.sqrt 2) = Real.pi / 4 := by
  rw [← cos_pi_div_four_eq]
  exact Real.arccos_cos (by positivity) (by linarith [Real.pi_pos])

lemma arccos_neg_inv_sqrt_two :
    Real.arccos (-(1 / Real.sqrt 2)) = 3 * Real.pi / 4 := by
  rw [Real.arccos_neg, arccos_inv_sqrt_two]
  ring

/-! #### Half-even rounding -/

lemma roundHalfEven_intCast (k : ℤ) : roundHalfEven (k : ℝ) = k := by
  unfold roundHalfEven
  rw [Int.fract_intCast, if_neg (by norm_num), round_intCast]

lemma abs_sub_roundHalfEven (x : ℝ) : |x - (roundHalfEven x : ℝ)| ≤ 1 / 2 := by
  unfold roundHalfEven
  by_cases h : Int.fract x = 1 / 2
  · by_cases he : Even ⌊x⌋
    · rw [if_pos h, if_pos he]
      rw [show x - (⌊x⌋ : ℝ) = Int.fract x from rfl, h]
      rw [abs_le]
      constructor <;> norm_num
    · rw [if_pos h, if_neg he]
      push_cast
      rw [show x - ((⌊x⌋ : ℝ) + 1) = Int.fract x - 1 by
        rw [show Int.fract x = x - (⌊x⌋ : ℝ) from rfl]; ring, h]
      rw [abs_le]
      constructor <;> norm_num
  · rw [if_neg h]
    exact abs_sub_round x

lemma roundHalfEven_eq_of_close (x : ℝ) (m : ℤ) (h : |x - (m : ℝ)| < 1 / 2) :
    roundHalfEven x = m := by
  have hfr : Int.fract x ≠ 1 / 2 := by
    intro hf
    have hx : x = (⌊x⌋ : ℝ) + 1 / 2 := by
      have := Int.fract_add_floor x
      rw [hf] at this
      linarith
    rw [hx] at h
    rcases le_or_lt m ⌊x⌋ with hm | hm
    · have : (m : ℝ) ≤ (⌊x⌋ : ℝ) := by exact_mod_cast hm
      rw [abs_lt] at h
      linarith
    · have : (⌊x⌋ : ℝ) + 1 ≤ (m : ℝ) := by exact_mod_cast hm
      rw [abs_lt] at h
      linarith
  unfold roundHalfEven
  rw [if_neg hfr, round_eq]
  rw [abs_lt] at h
  rw [Int.floor_eq_iff]
  constructor
  · linarith
  · linarith

/-! #### Evaluation of `normalize` and `angle_between` on concrete vectors -/

lemma angle_between_eval (v1 v2 n1 n2 : Point)
    (h1 : normalize v1 = n1) (h2 : normalize v2 = n2) :
    angle_between v1 v2 =
      signFactor (det2 n1 n2) * Real.arccos (clampDot (dot2 n1 n2)) := by
  unfold angle_between
  rw [h1, h2]

lemma normalize_px : normalize (1, 0) = ((1 : ℝ), (0 : ℝ)) := by
  unfold normalize norm2
  norm_num [Real.sqrt_one]

lemma normalize_py : normalize (0, 1) = ((0 : ℝ), (1 : ℝ)) := by
  unfold normalize norm2
  norm_num [Real.sqrt_one]

lemma normalize_nx : normalize (-1, 0) = ((-1 : ℝ), (0 : ℝ)) := by
  unfold normalize norm2
  norm_num [Real.sqrt_one]

lemma normalize_ny : normalize (0, -1) = ((0 : ℝ), (-1 : ℝ)) := by
  unfold normalize norm2
  norm_num [Real.sqrt_one]

lemma normalize_nn :
    normalize (-1, -1) = (-(1 / Real.sqrt 2), -(1 / Real.sqrt 2)) := by
  unfold normalize norm2
  rw [show ((-1 : ℝ), (-1 : ℝ)).1 ^ 2 + ((-1 : ℝ), (-1 : ℝ)).2 ^ 2 = 2 by norm_num]
  have h := sqrt_two_pos
  refine Prod.ext ?_ ?_ <;> (simp only []; field_simp)

lemma normalize_pp :
    normalize (1, 1) = (1 / Real.sqrt 2, 1 / Real.sqrt 2) := by
  unfold normalize norm2
  rw [show ((1 : ℝ), (1 : ℝ)).1 ^ 2 + ((1 : ℝ), (1 : ℝ)).2 ^ 2 = 2 by norm_num]

lemma clampDot_zero : clampDot 0 = 0 := clampDot_of_mem (by norm_num) (by norm_num)

lemma clampDot_neg_inv_sqrt_two :
    clampDot (-(1 / Real.sqrt 2)) = -(1 / Real.sqrt 2) := by
  refine clampDot_of_mem (neg_le_neg inv_sqrt_two_le_one) ?_
  have h : 0 < 1 / Real.sqrt 2 := by positivity
  linarith

lemma clampDot_neg_one : clampDot (-1) = -1 := clampDot_of_mem le_rfl (by norm_num)

lemma inv_sqrt_two_pos : (0 : ℝ) < 1 / Real.sqrt 2 := by positivity

lemma angle_px_py : angle_between (1, 0) (0, 1) = Real.pi / 2 := by
  rw [angle_between_eval _ _ _ _ normalize_px normalize_py,
    show det2 ((1 : ℝ), (0 : ℝ)) ((0 : ℝ), (1 : ℝ)) = 1 by norm_num [det2],
    show dot2 ((1 : ℝ), (0 : ℝ)) ((0 : ℝ), (1 : ℝ)) = 0 by norm_num [dot2],
    signFactor_of_pos one_pos, clampDot_zero, arccos_zero', one_mul]

lemma angle_py_nx : angle_between (0, 1) (-1, 0) = Real.pi / 2 := by
  rw [angle_between_eval _ _ _ _ normalize_py normalize_nx,
    show det2 ((0 : ℝ), (1 : ℝ)) ((-1 : ℝ), (0 : ℝ)) = 1 by norm_num [det2],
    show dot2 ((0 : ℝ), (1 : ℝ)) ((-1 : ℝ), (0 : ℝ)) = 0 by norm_num [dot2],
    signFactor_of_pos one_pos, clampDot_zero, arccos_zero', one_mul]

lemma angle_nx_ny : angle_between (-1, 0) (0, -1) = Real.pi / 2 := by
  rw [angle_between_eval _ _ _ _ normalize_nx normalize_ny,
    show det2 ((-1 : ℝ), (0 : ℝ)) ((0 : ℝ), (-1 : ℝ)) = 1 by norm_num [det2],
    show dot2 ((-1 : ℝ), (0 : ℝ)) ((0 : ℝ), (-1 : ℝ)) = 0 by norm_num [dot2],
    signFactor_of_pos one_pos, clampDot_zero, arccos_zero', one_mul]

lemma angle_ny_px : angle_between (0, -1) (1, 0) = Real.pi / 2 := by
  rw [angle_between_eval _ _ _ _ normalize_ny normalize_px,
    show det2 ((0 : ℝ), (-1 : ℝ)) ((1 : ℝ), (0 : ℝ)) = 1 by norm_num [det2],
    show dot2 ((0 : ℝ), (-1 : ℝ)) ((1 : ℝ), (0 : ℝ)) = 0 by norm_num [dot2],
    signFactor_of_pos one_pos, clampDot_zero, arccos_zero', one_mul]

lemma angle_py_nn : angle_between (0, 1) (-1, -1) = 3 * Real.pi / 4 := by
  rw [angle_between_eval _ _ _ _ normalize_py normalize_nn,
    show det2 ((0 : ℝ), (1 : ℝ)) (-(1 / Real.sqrt 2), -(1 / Real.sqrt 2)) =
      1 / Real.sqrt 2 by unfold det2; simp only []; ring,
    show dot2 ((0 : ℝ), (1 : ℝ)) (-(1 / Real.sqrt 2), -(1 / Real.sqrt 2)) =
      -(1 / Real.sqrt 2) by unfold dot2; simp only []; ring,
    signFactor_of_pos inv_sqrt_two_pos, clampDot_neg_inv_sqrt_two,
    arccos_neg_inv_sqrt_two, one_mul]

lemma angle_nn_px : angle_between (-1, -1) (1, 0) = 3 * Real.pi / 4 := by
  rw [angle_between_eval _ _ _ _ normalize_nn normalize_px,
    show det2 (-(1 / Real.sqrt 2), -(1 / Real.sqrt 2)) ((1 : ℝ), (0 : ℝ)) =
      1 / Real.sqrt 2 by unfold det2; simp only []; ring,
    show dot2 (-(1 / Real.sqrt 2), -(1 / Real.sqrt 2)) ((1 : ℝ), (0 : ℝ)) =
      -(1 / Real.sqrt 2) by unfold dot2; simp only []; ring,
    signFactor_of_pos inv_sqrt_two_pos, clampDot_neg_inv_sqrt_two,
    arccos_neg_inv_sqrt_two, one_mul]

lemma angle_ny_nx : angle_between (0, -1) (-1, 0) = -(Real.pi / 2) := by
  rw [angle_between_eval _ _ _ _ normalize_ny normalize_nx,
    show det2 ((0 : ℝ), (-1 : ℝ)) ((-1 : ℝ), (0 : ℝ)) = -1 by norm_num [det2],
    show dot2 ((0 : ℝ), (-1 : ℝ)) ((-1 : ℝ), (0 : ℝ)) = 0 by norm_num [dot2],
    signFactor_of_neg (by norm_num : (-1 : ℝ) < 0), clampDot_zero, arccos_zero']
  ring

lemma angle_nx_pp : angle_between (-1, 0) (1, 1) = -(3 * Real.pi / 4) := by
  rw [angle_between_eval _ _ _ _ normalize_nx normalize_pp,
    show det2 ((-1 : ℝ), (0 : ℝ)) (1 / Real.sqrt 2, 1 / Real.sqrt 2) =
      -(1 / Real.sqrt 2) by unfold det2; simp only []; ring,
    show dot2 ((-1 : ℝ), (0 : ℝ)) (1 / Real.sqrt 2, 1 / Real.sqrt 2) =
      -(1 / Real.sqrt 2) by unfold dot2; simp only []; ring,
    signFactor_of_neg (neg_neg_of_pos inv_sqrt_two_pos), clampDot_neg_inv_sqrt_two,
    arccos_neg_inv_sqrt_two]
  ring

lemma angle_pp_ny : angle_between (1, 1) (0, -1) = -(3 * Real.pi / 4) := by
  rw [angle_between_eval _ _ _ _ normalize_pp normalize_ny,
    show det2 (1 / Real.sqrt 2, 1 / Real.sqrt 2) ((0 : ℝ), (-1 : ℝ)) =
      -(1 / Real.sqrt 2) by unfold det2; simp only []; ring,
    show dot2 (1 / Real.sqrt 2, 1 / Real.sqrt 2) ((0 : ℝ), (-1 : ℝ)) =
      -(1 / Real.sqrt 2) by unfold dot2; simp only []; ring,
    signFactor_of_neg (neg_neg_of_pos inv_sqrt_two_pos), clampDot_neg_inv_sqrt_two,
    arccos_neg_inv_sqrt_two]
  ring

/-- Exactly antiparallel vectors take the zero-determinant tie-break branch
and produce `+π`. -/
lemma angle_between_antiparallel (v w : Point) (c : ℝ)
    (hv : v ≠ origin) (hc : c < 0) (hw : w = (c * v.1, c * v.2)) :
    angle_between v w = Real.pi := by
  subst hw
  rw [angle_between_eval v _ (normalize v)
    (-(normalize v).1, -(normalize v).2) rfl (normalize_smul v c hv hc)]
  have hdet : det2 (normalize v) (-(normalize v).1, -(normalize v).2) = 0 := by
    unfold det2
    simp only []
    ring
  have hdot : dot2 (normalize v) (-(normalize v).1, -(normalize v).2) = -1 := by
    have h1 := dot2_normalize_self v hv
    unfold dot2 at h1 ⊢
    simp only [] at h1 ⊢
    nlinarith [h1]
  rw [hdet, hdot, signFactor_of_zero rfl, clampDot_neg_one,
    Real.arccos_neg_one, one_mul]

/-! #### Concrete polygon evaluations -/

lemma totalAngleSum_triCCW : totalAngleSum triCCW = 2 * Real.pi := by
  norm_num [totalAngleSum, triCCW, Finset.sum_range_succ, vsub, List.getD]
  rw [angle_px_py, angle_py_nn, angle_nn_px]
  ring

lemma not_closeFirstLast_triCCW : ¬ closeFirstLast triCCW := by
  intro h
  obtain ⟨h1, -⟩ := h
  norm_num [triCCW, closeFirstLast, npIsClose, List.getD] at h1

lemma compute_total_angle_triCCW :
    compute_total_angle triCCW = some (2 * Real.pi) := by
  unfold compute_total_angle
  rw [if_pos (by norm_num [triCCW]), if_neg not_closeFirstLast_triCCW,
    totalAngleSum_triCCW]

lemma totalAngleSum_triCW : totalAngleSum triCW = -(2 * Real.pi) := by
  norm_num [totalAngleSum, triCW, Finset.sum_range_succ, vsub, List.getD,
    -Prod.mk_one_one]
  rw [angle_ny_nx, angle_nx_pp, angle_pp_ny]
  ring

lemma not_closeFirstLast_triCW : ¬ closeFirstLast triCW := by
  intro h
  obtain ⟨h1, -⟩ := h
  norm_num [triCW, closeFirstLast, npIsClose, List.getD] at h1

lemma compute_total_angle_triCW :
    compute_total_angle triCW = some (-(2 * Real.pi)) := by
  unfold compute_total_angle
  rw [if_pos (by norm_num [triCW]), if_neg not_closeFirstLast_triCW,
    totalAngleSum_triCW]

lemma closeFirstLast_sqCCW : closeFirstLast sqCCW := by
  constructor <;> norm_num [sqCCW, closeFirstLast, npIsClose, List.getD]

lemma totalAngleSum_sq4 :
    totalAngleSum [((0 : ℝ), (0 : ℝ)), (1, 0), (1, 1), (0, 1)] = 2 * Real.pi := by
  norm_num [totalAngleSum, Finset.sum_range_succ, vsub, List.getD]
  rw [angle_px_py, angle_py_nx, angle_nx_ny, angle_ny_px]
  ring

lemma compute_total_angle_sqCCW :
    compute_total_angle sqCCW = some (2 * Real.pi) := by
  unfold compute_total_angle
  rw [if_pos (by norm_num [sqCCW]), if_pos closeFirstLast_sqCCW,
    show sqCCW.dropLast = [((0 : ℝ), (0 : ℝ)), (1, 0), (1, 1), (0, 1)] from rfl,
    totalAngleSum_sq4]

lemma npRound_three_one : npRound 3 1 = 1 := by
  unfold npRound
  rw [show (1 : ℝ) * 10 ^ 3 = ((1000 : ℤ) : ℝ) by norm_num, roundHalfEven_intCast]
  norm_num

lemma npRound_zero_one : npRound 0 1 = 1 := by
  unfold npRound
  rw [show (1 : ℝ) * 10 ^ 0 = ((1 : ℤ) : ℝ) by norm_num, roundHalfEven_intCast]
  norm_num

lemma rotationAssert_one : rotationAssert 1 := by
  unfold rotationAssert npIsClose
  rw [npRound_three_one]
  norm_num

lemma n_rotations_raw_two_pi : n_rotations_raw (2 * Real.pi) = 1 := by
  unfold n_rotations_raw rad_to_deg
  field_simp
  ring

lemma compute_n_rotations_triCCW : compute_n_rotations triCCW = some 1 := by
  unfold compute_n_rotations
  rw [compute_total_angle_triCCW]
  simp only [Option.bind]
  rw [n_rotations_raw_two_pi, if_pos rotationAssert_one, npRound_zero_one]

/-! #### Further facts about the validation check and clamping -/

lemma npRound_zero_eq (x : ℝ) : npRound 0 x = (roundHalfEven x : ℝ) := by
  unfold npRound
  rw [pow_zero, mul_one, div_one]

lemma rotationAssert_of_nearInteger (n : ℝ) (h : nearIntegerSpec n) :
    rotationAssert n := by
  obtain ⟨k, hk⟩ := h
  have h3 : npRound 3 n = (k : ℝ) := by
    unfold npRound
    have hr : roundHalfEven (n * 10 ^ 3) = 1000 * k := by
      apply roundHalfEven_eq_of_close
      rw [show n * 10 ^ 3 - ((1000 * k : ℤ) : ℝ) = 1000 * (n - (k : ℝ)) by
        push_cast; ring, abs_mul, abs_of_nonneg (by norm_num : (0 : ℝ) ≤ 1000)]
      nlinarith [hk]
    rw [hr]
    push_cast
    ring
  unfold rotationAssert npIsClose
  rw [h3, abs_sub_comm]
  have := abs_nonneg n
  nlinarith [hk]

lemma clampDot_eq_one_of (x : ℝ) (h : clampDot x = 1) : 1 ≤ x := by
  by_contra hx
  push_neg at hx
  unfold clampDot at h
  rw [min_eq_left (le_of_lt hx)] at h
  rcases max_cases x (-1 : ℝ) with ⟨h1, -⟩ | ⟨h1, -⟩ <;> rw [h1] at h <;> linarith

lemma normalize_eq_of_dot (v1 v2 : Point) (h1 : v1 ≠ origin) (h2 : v2 ≠ origin)
    (hd : 1 ≤ dot2 (normalize v1) (normalize v2)) :
    normalize v1 = normalize v2 := by
  have u1 := dot2_normalize_self v1 h1
  have u2 := dot2_normalize_self v2 h2
  unfold dot2 at u1 u2 hd
  have e1 : ((normalize v1).1 - (normalize v2).1) ^ 2 +
      ((normalize v1).2 - (normalize v2).2) ^ 2 ≤ 0 := by nlinarith
  refine Prod.ext ?_ ?_ <;>
    nlinarith [sq_nonneg ((normalize v1).1 - (normalize v2).1),
      sq_nonneg ((normalize v1).2 - (normalize v2).2)]

lemma same_direction_of_normalize_eq (v1 v2 : Point)
    (h1 : v1 ≠ origin) (h2 : v2 ≠ origin) (h : normalize v1 = normalize v2) :
    ∃ c : ℝ, 0 < c ∧ v2 = (c * v1.1, c * v1.2) := by
  have hn1 := norm2_pos v1 h1
  have hn2 := norm2_pos v2 h2
  have hx := congrArg Prod.fst h
  have hy := congrArg Prod.snd h
  unfold normalize at hx hy
  simp only [] at hx hy
  refine ⟨norm2 v2 / norm2 v1, div_pos hn2 hn1, Prod.ext ?_ ?_⟩ <;>
    (simp only []; field_simp at hx hy ⊢; linarith)

/-! ### Claim theorems -/

/-- Claim C7: `compute_total_angle` fails (precondition violation) exactly on
input sequences of fewer than 3 points, and succeeds past that check on every
sequence of 3 or more points. -/
theorem total_angle_min_points (ps : List Point) :
    (compute_total_angle ps = none ↔ ps.length < 3) ∧
    ((∃ r, compute_total_angle ps = some r) ↔ 3 ≤ ps.length) := by
  unfold compute_total_angle
  by_cases h : 2 < ps.length
  · rw [if_pos h]
    constructor
    · constructor
      · intro hc
        exact absurd hc (by simp)
      · intro hl
        omega
    · constructor
      · intro
        omega
      · intro
        exact ⟨_, rfl⟩
  · rw [if_neg h]
    constructor
    · constructor
      · intro
        omega
      · intro
        rfl
    · constructor
      · rintro ⟨r, hr⟩
        exact absurd hr (by simp)
      · intro hl
        omega

/-- Claim C8: the total angle of the counterclockwise triangle
`[[0,0],[1,0],[1,1]]` is `+2π`, of its vertex-order reversal `−2π`, and of
the counterclockwise square `[[0,0],[1,0],[1,1],[0,1],[0,0]]` (closing point
included) `+2π`; exact in the real-arithmetic model. -/
theorem test_polygon_total_angles :
    compute_total_angle triCCW = some (2 * Real.pi) ∧
    compute_total_angle triCW = some (-(2 * Real.pi)) ∧
    compute_total_angle sqCCW = some (2 * Real.pi) :=
  ⟨compute_total_angle_triCCW, compute_total_angle_triCW,
    compute_total_angle_sqCCW⟩

/-- Claim C3: whenever the determinant of the normalized vectors is exactly
zero, `angle_between` uses sign `+1` (the result is the bare `arccos` value);
in particular any exactly antiparallel pair `v`, `c·v` with `c < 0` yields
`+π`, never `−π`. -/
theorem angle_sign_tie_break (v1 v2 v : Point) (c : ℝ) :
    (det2 (normalize v1) (normalize v2) = 0 →
      angle_between v1 v2 =
        Real.arccos (clampDot (dot2 (normalize v1) (normalize v2)))) ∧
    (v ≠ origin → c < 0 →
      angle_between v (c * v.1, c * v.2) = Real.pi) := by
  constructor
  · intro h
    unfold angle_between
    rw [h, signFactor_of_zero rfl, one_mul]
  · intro hv hc
    exact angle_between_antiparallel v _ c hv hc rfl

/-- Claim C3 witness: colinear pair `(1,0)`, `(1,0)` takes the positive-sign
branch, and the antiparallel pair `(1,0)`, `(-2)·(1,0)` yields `+π`. -/
theorem angle_sign_tie_break_witness :
    angle_between ((1 : ℝ), (0 : ℝ)) ((1 : ℝ), (0 : ℝ)) =
      Real.arccos (clampDot (dot2 (normalize (1, 0)) (normalize (1, 0)))) ∧
    angle_between ((1 : ℝ), (0 : ℝ))
      ((-2 : ℝ) * ((1 : ℝ), (0 : ℝ)).1, (-2 : ℝ) * ((1 : ℝ), (0 : ℝ)).2) =
      Real.pi :=
  ⟨(angle_sign_tie_break (1, 0) (1, 0) (1, 0) (-2)).1
      (by rw [normalize_px]; norm_num [det2]),
   (angle_sign_tie_break (1, 0) (1, 0) (1, 0) (-2)).2
      (by norm_num [origin, Prod.ext_iff]) (by norm_num)⟩

/-- Claim C4: for non-zero vectors the magnitude of `angle_between` lies in
`[0, π]`; the result is `0` only when the vectors are positive scalar
multiples of each other (parallel, same direction); and
`angle_between v v = 0`. -/
theorem angle_magnitude_range (v1 v2 : Point)
    (h1 : v1 ≠ origin) (h2 : v2 ≠ origin) :
    0 ≤ |angle_between v1 v2| ∧ |angle_between v1 v2| ≤ Real.pi ∧
    (angle_between v1 v2 = 0 →
      ∃ c : ℝ, 0 < c ∧ v2 = (c * v1.1, c * v1.2)) ∧
    angle_between v1 v1 = 0 := by
  refine ⟨abs_nonneg _, ?_, ?_, ?_⟩
  · unfold angle_between
    rw [abs_mul, abs_signFactor, one_mul,
      abs_of_nonneg (Real.arccos_nonneg _)]
    exact Real.arccos_le_pi _
  · intro h0
    unfold angle_between at h0
    have harc :
        Real.arccos (clampDot (dot2 (normalize v1) (normalize v2))) = 0 := by
      rcases signFactor_cases (det2 (normalize v1) (normalize v2)) with hs | hs <;>
        rw [hs] at h0 <;> linarith [h0]
    have hcl : 1 ≤ clampDot (dot2 (normalize v1) (normalize v2)) :=
      (Real.arccos_eq_zero).mp harc
    have hd : 1 ≤ dot2 (normalize v1) (normalize v2) :=
      clampDot_eq_one_of _ (le_antisymm (clampDot_mem _).2 hcl)
    exact same_direction_of_normalize_eq v1 v2 h1 h2
      (normalize_eq_of_dot v1 v2 h1 h2 hd)
  · unfold angle_between
    rw [show dot2 (normalize v1) (normalize v1) = 1 from
      dot2_normalize_self v1 h1, clampDot_one, Real.arccos_one, mul_zero]

/-- Claim C4 witness at `v1 = (1,0)`, `v2 = (0,1)`. -/
theorem angle_magnitude_range_witness :
    0 ≤ |angle_between ((1 : ℝ), (0 : ℝ)) ((0 : ℝ), (1 : ℝ))| ∧
    |angle_between ((1 : ℝ), (0 : ℝ)) ((0 : ℝ), (1 : ℝ))| ≤ Real.pi ∧
    (angle_between ((1 : ℝ), (0 : ℝ)) ((0 : ℝ), (1 : ℝ)) = 0 →
      ∃ c : ℝ, 0 < c ∧ ((0 : ℝ), (1 : ℝ)) = (c * 1, c * 0)) ∧
    angle_between ((1 : ℝ), (0 : ℝ)) ((1 : ℝ), (0 : ℝ)) = 0 :=
  angle_magnitude_range (1, 0) (0, 1)
    (by norm_num [origin, Prod.ext_iff]) (by norm_num [origin, Prod.ext_iff])

/-- Claim C5: for non-colinear non-zero vectors (determinant of the
normalizations non-zero) `angle_between` is antisymmetric. -/
theorem angle_antisymm (v1 v2 : Point) (_h1 : v1 ≠ origin) (_h2 : v2 ≠ origin)
    (hd : det2 (normalize v1) (normalize v2) ≠ 0) :
    angle_between v1 v2 = -angle_between v2 v1 := by
  unfold angle_between
  rw [show det2 (normalize v2) (normalize v1) =
      -det2 (normalize v1) (normalize v2) by unfold det2; ring,
    show dot2 (normalize v2) (normalize v1) =
      dot2 (normalize v1) (normalize v2) by unfold dot2; ring]
  have hs : signFactor (-det2 (normalize v1) (normalize v2)) =
      -signFactor (det2 (normalize v1) (normalize v2)) := by
    rcases lt_trichotomy (det2 (normalize v1) (normalize v2)) 0 with h | h | h
    · rw [signFactor_of_neg h, signFactor_of_pos (neg_pos.mpr h)]
      norm_num
    · exact absurd h hd
    · rw [signFactor_of_pos h, signFactor_of_neg (neg_neg_of_pos h)]
  rw [hs]
  ring

/-- Claim C5 witness at `v1 = (1,0)`, `v2 = (0,1)`. -/
theorem angle_antisymm_witness :
    angle_between ((1 : ℝ), (0 : ℝ)) ((0 : ℝ), (1 : ℝ)) =
      -angle_between ((0 : ℝ), (1 : ℝ)) ((1 : ℝ), (0 : ℝ)) :=
  angle_antisymm (1, 0) (0, 1)
    (by norm_num [origin, Prod.ext_iff]) (by norm_num [origin, Prod.ext_iff])
    (by rw [normalize_px, normalize_py]; norm_num [det2])

/-- Claim C9: the norm is zero exactly on the zero vector (the division of
`normalize` is degenerate exactly there), and on non-zero input the result is
a unit-length vector that is a positive multiple of the input. -/
theorem normalize_well_defined (v : Point) :
    (norm2 v = 0 ↔ v = origin) ∧
    (v ≠ origin → norm2 (normalize v) = 1 ∧
      ∃ c : ℝ, 0 < c ∧ normalize v = (c * v.1, c * v.2)) := by
  refine ⟨norm2_eq_zero_iff v, fun hv => ⟨?_, ?_⟩⟩
  · unfold norm2
    rw [show (normalize v).1 ^ 2 + (normalize v).2 ^ 2 =
      dot2 (normalize v) (normalize v) by unfold dot2; ring,
      dot2_normalize_self v hv, Real.sqrt_one]
  · have hn := norm2_pos v hv
    refine ⟨1 / norm2 v, by positivity, ?_⟩
    unfold normalize
    refine Prod.ext ?_ ?_ <;> (simp only []; ring)

/-- Claim C9 witness at `v = (3,4)`. -/
theorem normalize_well_defined_witness :
    norm2 (normalize (3, 4)) = 1 ∧
    ∃ c : ℝ, 0 < c ∧ normalize ((3 : ℝ), (4 : ℝ)) = (c * 3, c * 4) :=
  (normalize_well_defined (3, 4)).2 (by norm_num [origin, Prod.ext_iff])

/-- Claim C10: a 3-element sequence `[p, q, p]` (last point equal to the
first) passes the length check evaluated before the trim; the summation then
runs over the 2-point working sequence `[p, q]`, whose two terms are
antiparallel-edge angles of `+π` each, for a total of `2π`. -/
theorem degenerate_two_point_polygon (p q : Point) (hpq : p ≠ q) :
    compute_total_angle [p, q, p] = some (totalAngleSum [p, q]) ∧
    totalAngleSum [p, q] =
      angle_between (vsub q p) (vsub p q) + angle_between (vsub p q) (vsub q p) ∧
    angle_between (vsub q p) (vsub p q) = Real.pi ∧
    angle_between (vsub p q) (vsub q p) = Real.pi ∧
    compute_total_angle [p, q, p] = some (2 * Real.pi) := by
  have hvqp : vsub q p ≠ origin := by
    intro h
    apply hpq
    have hx := congrArg Prod.fst h
    have hy := congrArg Prod.snd h
    unfold vsub origin at hx hy
    simp only [] at hx hy
    exact Prod.ext (by linarith) (by linarith)
  have hvpq : vsub p q ≠ origin := by
    intro h
    apply hpq
    have hx := congrArg Prod.fst h
    have hy := congrArg Prod.snd h
    unfold vsub origin at hx hy
    simp only [] at hx hy
    exact Prod.ext (by linarith) (by linarith)
  have hclose : closeFirstLast [p, q, p] := by
    have habs : ∀ x : ℝ, |x - x| ≤ 1e-8 + 1e-8 * |x| := fun x => by
      rw [sub_self, abs_zero]
      positivity
    exact ⟨habs p.1, habs p.2⟩
  have hA : compute_total_angle [p, q, p] = some (totalAngleSum [p, q]) := by
    unfold compute_total_angle
    rw [if_pos (by simp), if_pos hclose]
    rfl
  have hsum : totalAngleSum [p, q] =
      angle_between (vsub q p) (vsub p q) +
        angle_between (vsub p q) (vsub q p) := by
    unfold totalAngleSum
    rw [show ([p, q] : List Point).length = 2 by simp,
      Finset.sum_range_succ, Finset.sum_range_one]
    norm_num [List.getD]
  have hpi1 : angle_between (vsub q p) (vsub p q) = Real.pi := by
    refine angle_between_antiparallel _ _ (-1) hvqp (by norm_num) ?_
    unfold vsub
    refine Prod.ext ?_ ?_ <;> (simp only []; ring)
  have hpi2 : angle_between (vsub p q) (vsub q p) = Real.pi := by
    refine angle_between_antiparallel _ _ (-1) hvpq (by norm_num) ?_
    unfold vsub
    refine Prod.ext ?_ ?_ <;> (simp only []; ring)
  refine ⟨hA, hsum, hpi1, hpi2, ?_⟩
  rw [hA, hsum, hpi1, hpi2]
  congr 1
  ring

/-- Claim C10 witness at `p = (0,0)`, `q = (1,0)`. -/
theorem degenerate_two_point_polygon_witness :
    compute_total_angle [((0 : ℝ), (0 : ℝ)), (1, 0), (0, 0)] =
      some (2 * Real.pi) :=
  (degenerate_two_point_polygon (0, 0) (1, 0)
    (by norm_num [Prod.ext_iff])).2.2.2.2

/-- Claim C1 (amended): once the total angle is computed,
`compute_n_rotations` fails exactly when the raw rotation count fails the
code's check — `np.isclose` of the count against its 3-decimal rounding with
`atol = 1e-8` and default `rtol = 1e-5` — and every raw count within `1e-8`
of an integer passes that check (the converse direction of the claim fails:
see the counterexample). -/
theorem rotation_check_characterization (ps : List Point) (t : ℝ)
    (ht : compute_total_angle ps = some t) :
    (compute_n_rotations ps = none ↔ ¬rotationAssert (n_rotations_raw t)) ∧
    (nearIntegerSpec (n_rotations_raw t) → compute_n_rotations ps ≠ none) := by
  have hmain : compute_n_rotations ps = none ↔
      ¬rotationAssert (n_rotations_raw t) := by
    unfold compute_n_rotations
    rw [ht]
    simp only [Option.bind]
    by_cases h : rotationAssert (n_rotations_raw t) <;> simp [h]
  refine ⟨hmain, fun hnear => ?_⟩
  rw [Ne, hmain, not_not]
  exact rotationAssert_of_nearInteger _ hnear

/-- Claim C1 witness at the counterclockwise triangle (total angle `2π`). -/
theorem rotation_check_characterization_witness :
    (compute_n_rotations triCCW = none ↔
      ¬rotationAssert (n_rotations_raw (2 * Real.pi))) ∧
    (nearIntegerSpec (n_rotations_raw (2 * Real.pi)) →
      compute_n_rotations triCCW ≠ none) :=
  rotation_check_characterization triCCW (2 * Real.pi)
    compute_total_angle_triCCW

/-- Claim C1 counterexample: the raw rotation count `0.5` passes the code's
validation (it coincides with its own 3-decimal rounding) although it is not
within `1e-8` of any integer, so the check does not reject every raw count
far from an integer. -/
theorem rotation_check_cex :
    rotationAssert (1 / 2) ∧ ¬nearIntegerSpec (1 / 2) := by
  constructor
  · unfold rotationAssert npIsClose
    have h3 : npRound 3 (1 / 2) = 1 / 2 := by
      unfold npRound
      rw [show (1 / 2 : ℝ) * 10 ^ 3 = ((500 : ℤ) : ℝ) by norm_num,
        roundHalfEven_intCast]
      norm_num
    rw [h3, sub_self, abs_zero]
    positivity
  · rintro ⟨k, hk⟩
    rw [abs_le] at hk
    rcases le_or_lt k 0 with h | h
    · have hc : (k : ℝ) ≤ 0 := by exact_mod_cast h
      linarith [hk.2]
    · have hc : (1 : ℝ) ≤ (k : ℝ) := by exact_mod_cast h
      linarith [hk.1]

/-- Claim C2: whenever `compute_n_rotations` returns a value, the raw count
equals the total angle over `2π` (degrees over 360), and the returned value
is an integer at minimal distance (at most `1/2`) from that raw count — a
nearest integer. -/
theorem rotation_count_nearest (ps : List Point) (t r : ℝ)
    (ht : compute_total_angle ps = some t)
    (hr : compute_n_rotations ps = some r) :
    rad_to_deg t / 360 = t / (2 * Real.pi) ∧
    ∃ k : ℤ, r = (k : ℝ) ∧ |t / (2 * Real.pi) - (k : ℝ)| ≤ 1 / 2 ∧
      ∀ m : ℤ, |t / (2 * Real.pi) - (k : ℝ)| ≤ |t / (2 * Real.pi) - (m : ℝ)| := by
  have hdeg : rad_to_deg t / 360 = t / (2 * Real.pi) := by
    unfold rad_to_deg
    rw [div_div, div_eq_div_iff (by positivity) (by positivity)]
    ring
  refine ⟨hdeg, ?_⟩
  unfold compute_n_rotations at hr
  rw [ht] at hr
  simp only [Option.bind] at hr
  by_cases h : rotationAssert (n_rotations_raw t)
  · rw [if_pos h] at hr
    have hrr : npRound 0 (n_rotations_raw t) = r := Option.some.inj hr
    have hn : n_rotations_raw t = t / (2 * Real.pi) := hdeg
    refine ⟨roundHalfEven (n_rotations_raw t), ?_, ?_, ?_⟩
    · rw [← hrr, npRound_zero_eq]
    · rw [← hn]
      exact abs_sub_roundHalfEven _
    · intro m
      rw [← hn]
      by_cases hm : m = roundHalfEven (n_rotations_raw t)
      · rw [hm]
      · have hz : roundHalfEven (n_rotations_raw t) - m ≠ 0 :=
          sub_ne_zero.mpr (Ne.symm hm)
        have hint : (1 : ℝ) ≤
            |(roundHalfEven (n_rotations_raw t) : ℝ) - (m : ℝ)| := by
          have h1 := Int.one_le_abs hz
          calc (1 : ℝ)
              ≤ ((|roundHalfEven (n_rotations_raw t) - m| : ℤ) : ℝ) := by
                exact_mod_cast h1
            _ = |(roundHalfEven (n_rotations_raw t) : ℝ) - (m : ℝ)| := by
                rw [Int.cast_abs, Int.cast_sub]
        have htri := abs_sub_le ((roundHalfEven (n_rotations_raw t) : ℝ))
          (n_rotations_raw t) ((m : ℝ))
        have hhalf := abs_sub_roundHalfEven (n_rotations_raw t)
        have hcomm := abs_sub_comm ((roundHalfEven (n_rotations_raw t) : ℝ))
          (n_rotations_raw t)
        linarith
  · rw [if_neg h] at hr
    exact absurd hr (by simp)

/-- Claim C2 witness at the counterclockwise triangle: total `2π`, count 1. -/
theorem rotation_count_nearest_witness :
    rad_to_deg (2 * Real.pi) / 360 = 2 * Real.pi / (2 * Real.pi) ∧
    ∃ k : ℤ, (1 : ℝ) = (k : ℝ) ∧
      |2 * Real.pi / (2 * Real.pi) - (k : ℝ)| ≤ 1 / 2 ∧
      ∀ m : ℤ, |2 * Real.pi / (2 * Real.pi) - (k : ℝ)| ≤
        |2 * Real.pi / (2 * Real.pi) - (m : ℝ)| :=
  rotation_count_nearest triCCW (2 * Real.pi) 1
    compute_total_angle_triCCW compute_n_rotations_triCCW

/-- Claim C6 (amended): past the length check, `compute_total_angle` sums
over the trimmed sequence exactly when the first and last points are
`np.isclose` per coordinate with `rtol = 1e-8` and the numpy default
`atol = 1e-8`, and over the unchanged sequence otherwise. -/
theorem closing_point_trim (ps : List Point) (h : 2 < ps.length) :
    (closeFirstLast ps →
      compute_total_angle ps = some (totalAngleSum ps.dropLast)) ∧
    (¬closeFirstLast ps → compute_total_angle ps = some (totalAngleSum ps)) := by
  unfold compute_total_angle
  rw [if_pos h]
  constructor
  · intro hc
    rw [if_pos hc]
  · intro hc
    rw [if_neg hc]

/-- Claim C6 witness at the closed square (trim branch taken). -/
theorem closing_point_trim_witness :
    compute_total_angle sqCCW = some (totalAngleSum sqCCW.dropLast) :=
  (closing_point_trim sqCCW (by norm_num [sqCCW])).1 closeFirstLast_sqCCW

/-- Claim C6 counterexample: for the sequence
`[(0,0), (1,0), (0,1), (5e-9,0)]` the code's closing-point test holds — so
the last point is dropped — although the first and last points do not
coincide under a purely relative per-coordinate tolerance of `1e-8`
(`|0 - 5e-9| > 1e-8 · |5e-9|`): the comparison is not purely relative. -/
theorem closing_point_trim_cex :
    closeFirstLast [((0 : ℝ), (0 : ℝ)), (1, 0), (0, 1), (5e-9, 0)] ∧
    ¬relCloseFirstLast [((0 : ℝ), (0 : ℝ)), (1, 0), (0, 1), (5e-9, 0)] := by
  constructor
  · constructor
    · show |(0 : ℝ) - 5e-9| ≤ 1e-8 + 1e-8 * |(5e-9 : ℝ)|
      rw [abs_of_nonneg (by norm_num : (0 : ℝ) ≤ 5e-9), abs_le]
      constructor <;> norm_num
    · show |(0 : ℝ) - 0| ≤ 1e-8 + 1e-8 * |(0 : ℝ)|
      rw [sub_self, abs_zero]
      positivity
  · rintro ⟨h1, -⟩
    rw [show ((0 : ℝ), (0 : ℝ)) =
      ([((0 : ℝ), (0 : ℝ)), (1, 0), (0, 1), (5e-9, 0)].getD 0 origin) from rfl] at h1
    have h1' : |(0 : ℝ) - 5e-9| ≤ 1e-8 * |(5e-9 : ℝ)| := h1
    rw [abs_of_nonneg (by norm_num : (0 : ℝ) ≤ 5e-9),
      show (0 : ℝ) - 5e-9 = -(5e-9) by ring, abs_neg,
      abs_of_nonneg (by norm_num : (0 : ℝ) ≤ 5e-9)] at h1'
    norm_num at h1'

end PolyOrient
